import Mathlib

/-!
Verification of the fixed-capacity Merkle tree implementation
(`merkle_tree_fixed`: `tree.rs`, `node_index.rs`, `proof.rs`).

The Rust code is embedded shallowly:

* a digest (`Vec<u8>`) is a `List Nat` of byte values;
* the pluggable hasher `Fn(&[u8]) -> Vec<u8>` is a Lean function
  `List Nat → List Nat`;
* `NodeIndex` is a plain `Nat` (the newtype adds nothing semantically);
* the digest storage `Nodes(Vec<Vec<u8>>)` is a `List (List Nat)`;
  reads are `List.getD`, writes are `List.set` (all reads and writes made
  by the embedded operations on valid inputs are in bounds, where the Rust
  indexing would not panic);
* the `assert!` in `MerkleTree::new` makes construction return `Option`;
* `hash_recursive` is not structurally terminating in the source (its
  recursion is bounded only by reaching the root), so it is embedded with
  an explicit fuel parameter returning `none` when fuel runs out: the Rust
  call diverges exactly when every amount of fuel is insufficient.
-/

abbrev Digest : Type := List Nat

abbrev Hasher : Type := List Nat → List Nat

/-- Rust `Location` from `proof.rs`: which side the sibling digest occupies. -/
inductive Location where
  | right : Location
  | left : Location
deriving DecidableEq, Repr

/-- Rust `ProofStep` from `proof.rs`: a sibling digest plus its side. -/
structure ProofStep where
  hash : Digest
  direction : Location
deriving DecidableEq, Repr

/-- Rust `MerkleTree` from `tree.rs`: the flat digest storage and the hasher. -/
structure MerkleTree where
  nodes : List Digest
  hasher : Hasher

namespace MerkleTree

/-- Rust `Nodes::new`: `vec![vec![0u8]; leaf_count * 2]`. -/
def nodes_new (leaf_count : Nat) : List Digest :=
  List.replicate (leaf_count * 2) [0]

/-- Rust `MerkleTree::is_power_of_two`: `n != 0 && n & (n - 1) == 0`. -/
def is_power_of_two (n : Nat) : Bool :=
  if n = 0 then false else n &&& (n - 1) == 0

/-- Rust `MerkleTree::new`; the `assert!` on the capacity is modelled by
returning `none` when it would abort. -/
def new (leaf_count : Nat) (hasher : Hasher) : Option MerkleTree :=
  if is_power_of_two leaf_count then
    some ⟨nodes_new leaf_count, hasher⟩
  else
    none

/-- Rust `MerkleTree::leaf_count`: `self.nodes.len() / 2`. -/
def leaf_count (t : MerkleTree) : Nat :=
  t.nodes.length / 2

/-- Rust `MerkleTree::root`: the digest stored at position 1. -/
def root (t : MerkleTree) : Digest :=
  t.nodes.getD 1 []

/-- Rust `MerkleTree::to_node_index`: `index + self.leaf_count()`. -/
def to_node_index (t : MerkleTree) (index : Nat) : Nat :=
  index + t.leaf_count

/-- Rust `MerkleTree::is_left`: `node_index.inner() % 2 == 0`. -/
def is_left (node_index : Nat) : Bool :=
  node_index % 2 == 0

/-- Rust `MerkleTree::parent_index`. -/
def parent_index (node_index : Nat) : Nat :=
  if is_left node_index then node_index / 2 else (node_index - 1) / 2

/-- Rust `MerkleTree::sibling_index`. -/
def sibling_index (node_index : Nat) : Nat :=
  if is_left node_index then node_index + 1 else node_index - 1

/-- Rust `MerkleTree::concat`: concatenation of two byte sequences. -/
def concat (one two : Digest) : Digest :=
  one ++ two

/-- Rust `MerkleTree::hash_recursive`, with explicit fuel: the source
recursion stops only when the slot it just wrote is the root (position 1),
so it diverges from any start position whose ancestor chain never makes
position 1 the written parent.  `none` means the fuel ran out. -/
def hash_recursive (hasher : Hasher) :
    Nat → List Digest → Nat → Option (List Digest)
  | 0, _, _ => none
  | fuel + 1, nodes, node_index =>
    let current_hash := nodes.getD node_index []
    let sibling_hash := nodes.getD (sibling_index node_index) []
    let c :=
      if is_left node_index then concat current_hash sibling_hash
      else concat sibling_hash current_hash
    let parent_hash := hasher c
    let parent := parent_index node_index
    let nodes1 := nodes.set parent parent_hash
    if parent = 1 then some nodes1
    else hash_recursive hasher fuel nodes1 parent

/-- Rust `MerkleTree::set_at`: hash the item into its leaf slot, then
recompute the ancestor chain (`hash_recursive`), with explicit fuel. -/
def set_at (t : MerkleTree) (fuel : Nat) (item_index : Nat)
    (item : List Nat) : Option MerkleTree :=
  let node_index := t.to_node_index item_index
  let my_hash := t.hasher item
  let nodes1 := t.nodes.set node_index my_hash
  (hash_recursive t.hasher fuel nodes1 node_index).map
    (fun ns => ⟨ns, t.hasher⟩)

/-- Rust `MerkleTree::proof_recursive`, with explicit fuel (the source
recursion stops only at position 1). -/
def proof_recursive (t : MerkleTree) :
    Nat → Nat → Option (List ProofStep)
  | 0, _ => none
  | fuel + 1, node_index =>
    if node_index = 1 then some []
    else
      let step : ProofStep :=
        ⟨t.nodes.getD (sibling_index node_index) [],
          if is_left node_index then Location.right else Location.left⟩
      (proof_recursive t fuel (parent_index node_index)).map
        (fun rest => step :: rest)

/-- Rust `MerkleTree::proof`.  The fuel `to_node_index + 1` is sufficient
for every start position of at least 1 (proved below), which covers every
call the source makes on a constructed tree. -/
def proof (t : MerkleTree) (index : Nat) : Option (List ProofStep) :=
  proof_recursive t (t.to_node_index index + 1) (t.to_node_index index)

/-- Rust `MerkleTree::verify`: fold the proof steps over the hashed item.
Note the source concatenates `(candidate, sibling)` for `Location::Left`
and `(sibling, candidate)` for `Location::Right`. -/
def verify (hasher : Hasher) (pf : List ProofStep) (item : List Nat) :
    Digest :=
  pf.foldl
    (fun my_hash step =>
      hasher
        (match step.direction with
          | Location.left => concat my_hash step.hash
          | Location.right => concat step.hash my_hash))
    (hasher item)

/-- One parent digest as `hash_recursive` computes it: the concatenation is
keyed to the structural side of `node_index`, then hashed. -/
def hash_step (hasher : Hasher) (nodes : List Digest) (node_index : Nat) :
    Digest :=
  hasher
    (if is_left node_index then
      concat (nodes.getD node_index []) (nodes.getD (sibling_index node_index) [])
    else
      concat (nodes.getD (sibling_index node_index) []) (nodes.getD node_index []))

/-- Total companion of `hash_recursive`: same per-step computation (the
parent is `node_index / 2` by `parent_index_eq`), but the recursion stops
as soon as the written parent position is at most 1.  It agrees with
`hash_recursive` for every fuel on which the latter succeeds, from every
start position of at least 2; see `hash_recursive_eq_hash_up`. -/
def hash_up (hasher : Hasher) (nodes : List Digest) (node_index : Nat) :
    List Digest :=
  if node_index / 2 ≤ 1 then
    nodes.set (node_index / 2) (hash_step hasher nodes node_index)
  else
    hash_up hasher
      (nodes.set (node_index / 2) (hash_step hasher nodes node_index))
      (node_index / 2)
termination_by node_index
decreasing_by
  omega

/-- Rust `MerkleTree::set_at` with the fuel fixed to the storage size,
which is sufficient for every valid item index on a tree of capacity at
least 2 (proved below). -/
def set_at_full (t : MerkleTree) (item_index : Nat) (item : List Nat) :
    Option MerkleTree :=
  t.set_at t.nodes.length item_index item

/-- A sequence of `set_at` calls (Rust `from_iter` performs exactly such a
sequence with indices `0, 1, 2, ...`). -/
def apply_ops (t : MerkleTree) : List (Nat × List Nat) → Option MerkleTree
  | [] => some t
  | op :: rest =>
    match t.set_at_full op.1 op.2 with
    | none => none
    | some t1 => apply_ops t1 rest

/-- Last item a sequence of assignments writes to leaf `k`, if any. -/
def last_write (ops : List (Nat × List Nat)) (k : Nat) :
    Option (List Nat) :=
  ops.foldl (fun acc op => if op.1 = k then some op.2 else acc) none

/-- Leaf index `k` is assigned at least once by the sequence. -/
def leaf_written (ops : List (Nat × List Nat)) (k : Nat) : Prop :=
  k ∈ ops.map Prod.fst

instance (ops : List (Nat × List Nat)) (k : Nat) :
    Decidable (leaf_written ops k) := by
  unfold leaf_written; infer_instance

/-- Storage slot `j` has been written by the sequence.  In the source a
slot is written exactly when `set_at` runs on a leaf below it: the leaf
slot itself is assigned directly and `hash_recursive` then writes every
ancestor position up to the root, so slot `j` is written at least once if
and only if some leaf whose position `k + leaf_count` has `j` on its
ancestor chain has been assigned at least once. -/
def slot_written (ops : List (Nat × List Nat)) (lc : Nat) (j : Nat) :
    Prop :=
  ∃ k, k < lc ∧ leaf_written ops k ∧ ∃ m, (k + lc) / 2 ^ m = j

/-- Canonical digest of position `i` in a tree of capacity `lc`, as a
function of the 0-based leaf digests: internal positions hash the
concatenation of their children's canonical digests, a leaf position `i`
(at or beyond `lc`) reads leaf `i - lc`. -/
def canonical (hasher : Hasher) (lc : Nat) (leafD : Nat → Digest)
    (i : Nat) : Digest :=
  if h : 1 ≤ i ∧ i < lc then
    hasher
      (canonical hasher lc leafD (2 * i) ++
        canonical hasher lc leafD (2 * i + 1))
  else
    leafD (i - lc)
termination_by lc - i
decreasing_by
  all_goals omega

/-- Invariant relating the digest storage of a tree reached from a fresh
tree by the assignment sequence `ops` to that sequence: the storage has
its original size, every written leaf slot holds the hash of the item last
written to it (and every unwritten one still holds the placeholder), and
every internal node both of whose children's slots have been written holds
the hash of the concatenation of its children's current digests. -/
def tree_inv (hh : Hasher) (lc : Nat) (ops : List (Nat × List Nat))
    (ns : List Digest) : Prop :=
  ns.length = 2 * lc ∧
  (∀ k, k < lc →
    (match last_write ops k with
      | some item => ns.getD (k + lc) [] = hh item
      | none => ns.getD (k + lc) [] = [0])) ∧
  (∀ j, 1 ≤ j → j < lc → slot_written ops lc (2 * j) →
    slot_written ops lc (2 * j + 1) →
    ns.getD j [] = hh (ns.getD (2 * j) [] ++ ns.getD (2 * j + 1) []))

/-- The step `proof_recursive` records at position `q`. -/
def path_step (t : MerkleTree) (q : Nat) : ProofStep :=
  ⟨t.nodes.getD (sibling_index q) [],
    if q % 2 = 0 then Location.right else Location.left⟩

/-- Verifier step formula as the specification states it (side `Right`
hashes `candidate ++ sibling`, side `Left` hashes `sibling ++ candidate`),
written here only to be compared with the implemented `verify`. -/
def verify_spec_formula (hasher : Hasher) (pf : List ProofStep)
    (item : List Nat) : Digest :=
  pf.foldl
    (fun candidate step =>
      hasher
        (match step.direction with
          | Location.right => candidate ++ step.hash
          | Location.left => step.hash ++ candidate))
    (hasher item)

end MerkleTree

/-- One bit round of CRC-8/DARC in reflected form (polynomial `0x39`
reflected to `0x9C`): this is the checksum the repository's tests use as
their toy one-byte hasher. -/
def crc8Round (crc : Nat) : Nat :=
  if crc % 2 = 1 then (crc / 2) ^^^ 0x9C else crc / 2

/-- Absorb one input byte into a CRC-8/DARC state. -/
def crc8Byte (crc b : Nat) : Nat :=
  (crc8Round)^[8] (crc ^^^ b)

/-- The repository tests' hasher: the one-byte CRC-8/DARC digest of the
input bytes (`init = 0`, `refin = refout = true`, `xorout = 0`). -/
def crc8 : Hasher :=
  fun data => [data.foldl crc8Byte 0]

/-- The eight-leaf scenario of the repository tests: the byte sequences of
the strings Alpha, Bravo, Charlie, Delta, Echo, Foxtrot, Golf and Hotel,
assigned to leaves 0 through 7 in order. -/
def demo_ops : List (Nat × List Nat) :=
  [(0, [65, 108, 112, 104, 97]),
    (1, [66, 114, 97, 118, 111]),
    (2, [67, 104, 97, 114, 108, 105, 101]),
    (3, [68, 101, 108, 116, 97]),
    (4, [69, 99, 104, 111]),
    (5, [70, 111, 120, 116, 114, 111, 116]),
    (6, [71, 111, 108, 102]),
    (7, [72, 111, 116, 101, 108])]

/-- The fully populated eight-leaf tree that scenario produces: slot 0 is
the unused placeholder, slot 1 the root `0x0B`, slots 2 through 7 the
internal digests and slots 8 through 15 the leaf digests the repository's
tests list. -/
def demo_tree : MerkleTree :=
  ⟨[[0x00], [0x0B], [0x4C], [0xDE], [0x58], [0x28], [0x00], [0xD5],
    [0x47], [0x24], [0x7E], [0x56], [0xEF], [0x49], [0x12], [0x04]],
    crc8⟩

/-- The byte sequence of the string Delta, the item of leaf 3. -/
def delta_item : List Nat :=
  [68, 101, 108, 116, 97]

/-- The membership proof the repository's own test expects for leaf 3:
`[(0x7E, Left), (0x58, Left), (0xDE, Right)]`. -/
def delta_proof_steps : List ProofStep :=
  [⟨[0x7E], Location.left⟩, ⟨[0x58], Location.left⟩,
    ⟨[0xDE], Location.right⟩]

namespace MerkleTree

/-- The implemented parent function is truncating halving, for both
parities: for even `i` the two branches agree literally, and for odd `i`
Nat division gives `(i - 1) / 2 = i / 2`. -/
theorem parent_index_eq (i : Nat) : parent_index i = i / 2 := by
  unfold parent_index is_left
  rcases eq_or_ne (i % 2) 0 with h | h <;> simp [h] <;> omega

theorem sibling_index_of_even {i : Nat} (h : i % 2 = 0) :
    sibling_index i = i + 1 := by
  simp [sibling_index, is_left, h]

theorem sibling_index_of_odd {i : Nat} (h : i % 2 = 1) :
    sibling_index i = i - 1 := by
  simp [sibling_index, is_left, h]

theorem xor_one_of_even {i : Nat} (h : i % 2 = 0) : i ^^^ 1 = i + 1 := by
  apply Nat.eq_of_testBit_eq
  intro j
  cases j with
  | zero =>
    have e1 : (i % 2 = 1) = False := by simp; omega
    have e2 : ((i + 1) % 2 = 1) = True := by simp; omega
    simp only [Nat.testBit_xor, Nat.testBit_zero, e1, e2]
    simp
    omega
  | succ j =>
    rw [Nat.testBit_xor, Nat.testBit_add_one, Nat.testBit_add_one,
      Nat.testBit_add_one]
    have h1 : (1 : Nat) / 2 = 0 := by omega
    have h2 : (i + 1) / 2 = i / 2 := by omega
    simp [h1, h2]

theorem xor_one_of_odd {i : Nat} (h : i % 2 = 1) : i ^^^ 1 = i - 1 := by
  apply Nat.eq_of_testBit_eq
  intro j
  cases j with
  | zero =>
    have e1 : (i % 2 = 1) = True := by simp; omega
    have e2 : ((i - 1) % 2 = 1) = False := by simp; omega
    simp only [Nat.testBit_xor, Nat.testBit_zero, e1, e2]
    simp
    omega
  | succ j =>
    rw [Nat.testBit_xor, Nat.testBit_add_one, Nat.testBit_add_one,
      Nat.testBit_add_one]
    have h1 : (1 : Nat) / 2 = 0 := by omega
    have h2 : (i - 1) / 2 = i / 2 := by omega
    simp [h1, h2]

/-- The implemented sibling function is xor with 1. -/
theorem sibling_index_eq_xor (i : Nat) : sibling_index i = i ^^^ 1 := by
  rcases eq_or_ne (i % 2) 0 with h | h
  · rw [sibling_index_of_even h, xor_one_of_even h]
  · have h1 : i % 2 = 1 := by omega
    rw [sibling_index_of_odd h1, xor_one_of_odd h1]

/-- Bit-level splitting of a bitwise and on the lowest bit. -/
theorem land_two_mul_add {r s : Nat} (a b : Nat) (hr : r < 2) (hs : s < 2) :
    (2 * a + r) &&& (2 * b + s) =
      2 * (a &&& b) + (if r = 1 ∧ s = 1 then 1 else 0) := by
  apply Nat.eq_of_testBit_eq
  intro j
  cases j with
  | zero =>
    rw [Nat.testBit_and, Nat.testBit_zero, Nat.testBit_zero, Nat.testBit_zero]
    have e1 : (2 * a + r) % 2 = r := by omega
    have e2 : (2 * b + s) % 2 = s := by omega
    have e3 : (2 * (a &&& b) + if r = 1 ∧ s = 1 then 1 else 0) % 2 =
        if r = 1 ∧ s = 1 then 1 else 0 := by
      split <;> omega
    rw [e1, e2, e3]
    rcases (by omega : r = 0 ∨ r = 1) with h | h <;>
      rcases (by omega : s = 0 ∨ s = 1) with h2 | h2 <;>
      simp [h, h2]
  | succ j =>
    rw [Nat.testBit_and, Nat.testBit_add_one, Nat.testBit_add_one,
      Nat.testBit_add_one]
    have e1 : (2 * a + r) / 2 = a := by omega
    have e2 : (2 * b + s) / 2 = b := by omega
    have e3 : (2 * (a &&& b) + if r = 1 ∧ s = 1 then 1 else 0) / 2 = a &&& b := by
      split <;> omega
    rw [e1, e2, e3, Nat.testBit_and]

/-- The bit trick in `is_power_of_two` is correct: for nonzero `n`,
`n &&& (n - 1) = 0` holds exactly when `n` is a power of two. -/
theorem land_pred_eq_zero_iff :
    ∀ n, 1 ≤ n → ((n &&& (n - 1)) = 0 ↔ ∃ k, n = 2 ^ k) := by
  intro n
  induction n using Nat.strong_induction_on with
  | _ n ih =>
    intro hn
    rcases eq_or_ne n 1 with rfl | hne
    · exact ⟨fun _ => ⟨0, rfl⟩, fun _ => by decide⟩
    · have hn2 : 2 ≤ n := by omega
      rcases eq_or_ne (n % 2) 0 with hpar | hpar
      · -- even case: n = 2 * m with m at least 1
        obtain ⟨m, rfl⟩ : ∃ m, n = 2 * m := ⟨n / 2, by omega⟩
        have hm : 1 ≤ m := by omega
        have hsplit : (2 * m) &&& (2 * m - 1) = 2 * (m &&& (m - 1)) := by
          have e : 2 * m - 1 = 2 * (m - 1) + 1 := by omega
          rw [e, show 2 * m = 2 * m + 0 from rfl,
            land_two_mul_add m (m - 1) (by omega) (by omega)]
          simp
        rw [hsplit]
        constructor
        · intro hz
          obtain ⟨k, hk⟩ := (ih m (by omega) hm).mp (by omega)
          exact ⟨k + 1, by rw [hk, pow_succ]; ring⟩
        · rintro ⟨k, hk⟩
          rcases k with _ | k
          · omega
          · have hmk : m = 2 ^ k := by
              have : 2 * m = 2 * 2 ^ k := by rw [hk, pow_succ]; ring
              omega
            have := (ih m (by omega) hm).mpr ⟨k, hmk⟩
            omega
      · -- odd case: both sides are false
        have hodd : n % 2 = 1 := by omega
        obtain ⟨m, rfl⟩ : ∃ m, n = 2 * m + 1 := ⟨n / 2, by omega⟩
        have hm : 1 ≤ m := by omega
        have hsplit : (2 * m + 1) &&& (2 * m + 1 - 1) = 2 * m := by
          have e : 2 * m + 1 - 1 = 2 * m + 0 := by omega
          rw [e, land_two_mul_add m m (by omega) (by omega)]
          simp [Nat.and_self]
        rw [hsplit]
        constructor
        · intro hz; omega
        · rintro ⟨k, hk⟩
          rcases k with _ | k
          · omega
          · exfalso
            have : (2 : Nat) ^ (k + 1) % 2 = 0 := by
              rw [pow_succ]; omega
            omega

/-- Full characterization of the capacity check. -/
theorem is_power_of_two_iff (n : Nat) :
    is_power_of_two n = true ↔ ∃ k, n = 2 ^ k := by
  unfold is_power_of_two
  rcases eq_or_ne n 0 with rfl | hn
  · constructor
    · intro h; simp at h
    · rintro ⟨k, hk⟩
      have := Nat.one_le_two_pow (n := k)
      omega
  · have h1 : 1 ≤ n := by omega
    rw [if_neg hn]
    simp only [beq_iff_eq]
    exact land_pred_eq_zero_iff n h1

theorem getD_set_ne {l : List Digest} {i j : Nat} (h : i ≠ j) (d : Digest) :
    (l.set i d).getD j [] = l.getD j [] := by
  simp [List.getD_eq_getElem?_getD, List.getElem?_set_ne h]

theorem getD_set_self {l : List Digest} {i : Nat} (h : i < l.length)
    (d : Digest) : (l.set i d).getD i [] = d := by
  simp [List.getD_eq_getElem?_getD, List.getElem?_set_self h]

/-- Halving commutes with iterated halving, one level at a time. -/
theorem div_two_pow_succ (i m : Nat) : i / 2 / 2 ^ m = i / 2 ^ (m + 1) := by
  rw [Nat.div_div_eq_div_mul, pow_succ, mul_comm]

/-- Iterated halving followed by one halving is one more level. -/
theorem div_two_pow_succ_right (i m : Nat) :
    i / 2 ^ m / 2 = i / 2 ^ (m + 1) := by
  rw [Nat.div_div_eq_div_mul, pow_succ]

/-- Starting `hash_recursive` at position 0 never terminates: the written
parent position is again 0, never 1, so every amount of fuel runs out.
In the source this is an infinite recursion. -/
theorem hash_recursive_zero_none (hh : Hasher) :
    ∀ fuel ns, hash_recursive hh fuel ns 0 = none := by
  intro fuel
  induction fuel with
  | zero => intro ns; rfl
  | succ fuel ih =>
    intro ns
    rw [hash_recursive]
    simp only [parent_index_eq]
    norm_num
    exact ih _

/-- Starting `hash_recursive` at position 1 (the leaf slot of a tree of
capacity 1) never terminates: the parent of position 1 is 0, which is not
the root test value 1, and from 0 the recursion loops forever. -/
theorem hash_recursive_one_none (hh : Hasher) :
    ∀ fuel ns, hash_recursive hh fuel ns 1 = none := by
  intro fuel ns
  cases fuel with
  | zero => rfl
  | succ fuel =>
    rw [hash_recursive]
    simp only [parent_index_eq]
    norm_num
    exact hash_recursive_zero_none hh fuel _

/-- When `hash_recursive` succeeds from a position of at least 2, its
result is the one `hash_up` computes. -/
theorem hash_recursive_eq_hash_up (hh : Hasher) :
    ∀ fuel i ns out, 2 ≤ i → hash_recursive hh fuel ns i = some out →
      out = hash_up hh ns i := by
  intro fuel
  induction fuel with
  | zero => intro i ns out _ h; exact absurd h (by simp [hash_recursive])
  | succ fuel ih =>
    intro i ns out hi h
    rw [hash_recursive] at h
    simp only [parent_index_eq] at h
    rw [hash_up]
    have hstep :
        hh (if is_left i then concat (ns.getD i []) (ns.getD (sibling_index i) [])
          else concat (ns.getD (sibling_index i) []) (ns.getD i [])) =
          hash_step hh ns i := rfl
    rcases eq_or_ne (i / 2) 1 with h1 | h1
    · rw [if_pos (by omega)]
      simp only [h1, if_pos rfl] at h
      simpa [hash_step, h1] using h.symm
    · have h2 : 2 ≤ i / 2 := by omega
      rw [if_neg (by omega)]
      simp only [if_neg h1] at h
      have := ih (i / 2) (ns.set (i / 2) (hash_step hh ns i)) out h2
      apply this
      simpa [hash_step] using h

/-- Fuel at least the start position is always sufficient for
`hash_recursive` from a position of at least 2. -/
theorem hash_recursive_isSome (hh : Hasher) :
    ∀ fuel i ns, 2 ≤ i → i ≤ fuel →
      (hash_recursive hh fuel ns i).isSome = true := by
  intro fuel
  induction fuel with
  | zero => intro i ns hi hf; omega
  | succ fuel ih =>
    intro i ns hi hf
    rw [hash_recursive]
    simp only [parent_index_eq]
    rcases eq_or_ne (i / 2) 1 with h1 | h1
    · rw [if_pos h1]; rfl
    · rw [if_neg h1]
      exact ih (i / 2) _ (by omega) (by omega)

/-- The ancestor recomputation preserves the storage size. -/
theorem hash_up_length (hh : Hasher) :
    ∀ i ns, (hash_up hh ns i).length = ns.length := by
  intro i
  induction i using Nat.strong_induction_on with
  | _ i ih =>
    intro ns
    rw [hash_up]
    split
    · simp
    · rw [ih (i / 2) (by omega)]
      simp

/-- Frame property of the ancestor recomputation: every slot that is not a
strict ancestor of the start position keeps its digest. -/
theorem hash_up_frame (hh : Hasher) (j : Nat) :
    ∀ i ns, (∀ m, 1 ≤ m → j ≠ i / 2 ^ m) →
      (hash_up hh ns i).getD j [] = ns.getD j [] := by
  intro i
  induction i using Nat.strong_induction_on with
  | _ i ih =>
    intro ns hj
    have hj1 : i / 2 ≠ j := by
      have := hj 1 le_rfl
      simpa [pow_one] using this.symm
    rw [hash_up]
    split
    · exact getD_set_ne hj1 _
    · rw [ih (i / 2) (by omega)]
      · exact getD_set_ne hj1 _
      · intro m hm
        have := hj (m + 1) (by omega)
        rw [← div_two_pow_succ] at this
        exact this

/-- Sharper frame property for start positions of at least 2: every slot
other than the chain positions `i / 2 ^ m` that are at least 1 keeps its
digest.  In particular the unused slot 0 is never written: the recursion
stops once the written parent is position 1, before the chain reaches 0. -/
theorem hash_up_frame_pos (hh : Hasher) (j : Nat) :
    ∀ i ns, 2 ≤ i → (∀ m, 1 ≤ m → 1 ≤ i / 2 ^ m → j ≠ i / 2 ^ m) →
      (hash_up hh ns i).getD j [] = ns.getD j [] := by
  intro i
  induction i using Nat.strong_induction_on with
  | _ i ih =>
    intro ns hi hj
    have hj1 : i / 2 ≠ j := by
      have h2 := hj 1 le_rfl (by rw [pow_one]; omega)
      rw [pow_one] at h2
      omega
    rw [hash_up]
    split
    · exact getD_set_ne hj1 _
    · rw [ih (i / 2) (by omega) _ (by omega)]
      · exact getD_set_ne hj1 _
      · intro m hm hpos
        rw [div_two_pow_succ]
        refine hj (m + 1) (by omega) ?_
        rw [← div_two_pow_succ]
        exact hpos

/-- The digest `hash_recursive` writes into `i / 2` is the hash of the
concatenation of the current digests of the two children of `i / 2`, in
structural left-then-right order: `i` and its sibling are exactly
`2 * (i / 2)` and `2 * (i / 2) + 1`, and the side test puts the even one
first. -/
theorem hash_step_eq (hh : Hasher) (ns : List Digest) (i : Nat) :
    hash_step hh ns i =
      hh (ns.getD (2 * (i / 2)) [] ++ ns.getD (2 * (i / 2) + 1) []) := by
  unfold hash_step sibling_index is_left concat
  rcases eq_or_ne (i % 2) 0 with h | h
  · have e1 : 2 * (i / 2) = i := by omega
    have e2 : 2 * (i / 2) + 1 = i + 1 := by omega
    simp [h, e1, e2]
  · have h1 : i % 2 = 1 := by omega
    have e1 : 2 * (i / 2) = i - 1 := by omega
    have e2 : 2 * (i / 2) + 1 = i := by omega
    have e3 : i - 1 + 1 = i := by omega
    simp [h, e1, e2, e3]

/-- After the ancestor recomputation from a start position `i` of at least
2, every strict ancestor `a` of `i` (other than position 0) holds the hash
of the concatenation of its children's final digests. -/
theorem hash_up_path (hh : Hasher) :
    ∀ i ns, 2 ≤ i → i < ns.length → ∀ a, 1 ≤ a →
      (∃ m, 1 ≤ m ∧ i / 2 ^ m = a) →
      (hash_up hh ns i).getD a [] =
        hh ((hash_up hh ns i).getD (2 * a) [] ++
          (hash_up hh ns i).getD (2 * a + 1) []) := by
  intro i
  induction i using Nat.strong_induction_on with
  | _ i ih =>
    intro ns hi hlen a ha ⟨m, hm, hma⟩
    have hlen3 : 3 ≤ ns.length := by omega
    rw [hash_up]
    split
    · -- the written parent is the root, position 1; only ancestor a = 1
      rename_i hstop
      have hi3 : i ≤ 3 := by omega
      have ha1 : a = 1 := by
        rcases eq_or_ne m 1 with rfl | hm2
        · simp only [pow_one] at hma; omega
        · exfalso
          have h4 : 4 ≤ 2 ^ m := by
            have : 2 ≤ m := by omega
            calc 4 = 2 ^ 2 := rfl
            _ ≤ 2 ^ m := Nat.pow_le_pow_right (by omega) this
          have : i / 2 ^ m = 0 := Nat.div_eq_of_lt (by omega)
          omega
      have hp1 : i / 2 = 1 := by omega
      subst ha1
      rw [hp1]
      rw [getD_set_self (by omega) _, getD_set_ne (by omega) _,
        getD_set_ne (by omega) _]
      rw [hash_step_eq, hp1]
    · -- the written parent is at least 2; recurse
      rename_i hgo
      have hp2 : 2 ≤ i / 2 := by omega
      have hplen : i / 2 < (ns.set (i / 2) (hash_step hh ns i)).length := by
        simp; omega
      rcases eq_or_ne m 1 with rfl | hm2
      · -- a is the parent just written: its slot and its children are
        -- untouched by the recursive call
        have hap : a = i / 2 := by simpa [pow_one] using hma.symm
        rw [← hap]
        have hfr1 : (hash_up hh (ns.set a (hash_step hh ns i)) a).getD a [] =
            (ns.set a (hash_step hh ns i)).getD a [] := by
          apply hash_up_frame
          intro m1 hm1
          have : a / 2 ^ m1 ≤ a / 2 := by
            calc a / 2 ^ m1 ≤ a / 2 ^ 1 :=
              Nat.div_le_div_left (Nat.pow_le_pow_right (by omega) hm1) (by omega)
            _ = a / 2 := by rw [pow_one]
          omega
        have hfr2 : (hash_up hh (ns.set a (hash_step hh ns i)) a).getD (2 * a) [] =
            (ns.set a (hash_step hh ns i)).getD (2 * a) [] := by
          apply hash_up_frame
          intro m1 hm1
          have : a / 2 ^ m1 ≤ a / 2 := by
            calc a / 2 ^ m1 ≤ a / 2 ^ 1 :=
              Nat.div_le_div_left (Nat.pow_le_pow_right (by omega) hm1) (by omega)
            _ = a / 2 := by rw [pow_one]
          omega
        have hfr3 : (hash_up hh (ns.set a (hash_step hh ns i)) a).getD (2 * a + 1) [] =
            (ns.set a (hash_step hh ns i)).getD (2 * a + 1) [] := by
          apply hash_up_frame
          intro m1 hm1
          have : a / 2 ^ m1 ≤ a / 2 := by
            calc a / 2 ^ m1 ≤ a / 2 ^ 1 :=
              Nat.div_le_div_left (Nat.pow_le_pow_right (by omega) hm1) (by omega)
            _ = a / 2 := by rw [pow_one]
          omega
        rw [hfr1, hfr2, hfr3]
        rw [getD_set_self (by omega) _, getD_set_ne (by omega) _,
          getD_set_ne (by omega) _]
        rw [hash_step_eq, hap]
      · -- a is a strict ancestor of the parent: the inductive hypothesis
        -- on the recursive call settles it
        apply ih (i / 2) (by omega) _ hp2 hplen a ha
        refine ⟨m - 1, by omega, ?_⟩
        rw [div_two_pow_succ]
        have : m - 1 + 1 = m := by omega
        rw [this]
        exact hma

/-- A strict ancestor position is at most half the start position. -/
theorem anc_le_half {i m : Nat} (hm : 1 ≤ m) : i / 2 ^ m ≤ i / 2 := by
  calc i / 2 ^ m ≤ i / 2 ^ 1 :=
    Nat.div_le_div_left (Nat.pow_le_pow_right (by omega) hm) (by omega)
  _ = i / 2 := by rw [pow_one]

/-- Successful `set_at` from a leaf position of at least 2 produces
exactly the `hash_up` update of the storage. -/
theorem set_at_some_eq {t : MerkleTree} {fuel k : Nat} {item : List Nat}
    {t2 : MerkleTree} (hpos : 2 ≤ t.to_node_index k)
    (h : t.set_at fuel k item = some t2) :
    t2 = ⟨hash_up t.hasher (t.nodes.set (t.to_node_index k) (t.hasher item))
      (t.to_node_index k), t.hasher⟩ := by
  unfold set_at at h
  dsimp only at h
  rcases hr : hash_recursive t.hasher fuel
      (t.nodes.set (t.to_node_index k) (t.hasher item))
      (t.to_node_index k) with _ | out
  · rw [hr] at h
    simp at h
  · rw [hr] at h
    rw [show Option.map (fun ns => (⟨ns, t.hasher⟩ : MerkleTree)) (some out) =
      some ⟨out, t.hasher⟩ from rfl] at h
    have := hash_recursive_eq_hash_up t.hasher fuel _ _ out hpos hr
    rw [← Option.some_inj.mp h, this]

/-- With fuel equal to the storage size, `set_at` succeeds whenever the
capacity is at least 2 and the index is a valid leaf index. -/
theorem set_at_full_isSome {t : MerkleTree} {lc k : Nat} (hlc : 2 ≤ lc)
    (hlen : t.nodes.length = 2 * lc) (hk : k < lc) (item : List Nat) :
    (t.set_at_full k item).isSome = true := by
  unfold set_at_full set_at
  have hlc2 : t.leaf_count = lc := by unfold leaf_count; omega
  have hpos : 2 ≤ t.to_node_index k := by unfold to_node_index; omega
  have hfuel : t.to_node_index k ≤ t.nodes.length := by
    unfold to_node_index; omega
  have := hash_recursive_isSome t.hasher t.nodes.length (t.to_node_index k)
    (t.nodes.set (t.to_node_index k) (t.hasher item)) hpos hfuel
  rcases hr : hash_recursive t.hasher t.nodes.length
      (t.nodes.set (t.to_node_index k) (t.hasher item))
      (t.to_node_index k) with _ | out
  · rw [hr] at this; simp at this
  · simpa using this

/-- Appending one assignment updates `last_write` pointwise. -/
theorem last_write_append (ops : List (Nat × List Nat)) (op : Nat × List Nat)
    (k : Nat) :
    last_write (ops ++ [op]) k =
      if op.1 = k then some op.2 else last_write ops k := by
  unfold last_write
  rw [List.foldl_append]
  rfl

/-- Appending one assignment extends the written-leaf set by its index. -/
theorem leaf_written_append (ops : List (Nat × List Nat))
    (op : Nat × List Nat) (k : Nat) :
    leaf_written (ops ++ [op]) k ↔ leaf_written ops k ∨ k = op.1 := by
  unfold leaf_written
  simp

/-- The written status of a slot after one more assignment. -/
theorem slot_written_append (ops : List (Nat × List Nat))
    (op : Nat × List Nat) (lc j : Nat) :
    slot_written (ops ++ [op]) lc j ↔
      slot_written ops lc j ∨
        (op.1 < lc ∧ ∃ m, (op.1 + lc) / 2 ^ m = j) := by
  unfold slot_written
  constructor
  · rintro ⟨k, hk, hw, m, hm⟩
    rcases (leaf_written_append ops op k).mp hw with hw | rfl
    · exact Or.inl ⟨k, hk, hw, m, hm⟩
    · exact Or.inr ⟨hk, m, hm⟩
  · rintro (⟨k, hk, hw, m, hm⟩ | ⟨hk, m, hm⟩)
    · exact ⟨k, hk, (leaf_written_append ops op k).mpr (Or.inl hw), m, hm⟩
    · exact ⟨op.1, hk, (leaf_written_append ops op op.1).mpr (Or.inr rfl),
        m, hm⟩

/-- A leaf has been written at least once exactly when `last_write`
returns something for it. -/
theorem last_write_isSome_iff (k : Nat) :
    ∀ (ops : List (Nat × List Nat)) (acc : Option (List Nat)),
      (ops.foldl (fun a op => if op.1 = k then some op.2 else a) acc ≠ none) ↔
        (acc ≠ none ∨ k ∈ ops.map Prod.fst) := by
  intro ops
  induction ops with
  | nil => intro acc; simp
  | cons op rest ih =>
    intro acc
    rw [List.foldl_cons, ih]
    rcases eq_or_ne op.1 k with h | h
    · simp [h]
    · simp [h, Ne.symm h]

theorem last_write_ne_none_iff (ops : List (Nat × List Nat)) (k : Nat) :
    last_write ops k ≠ none ↔ leaf_written ops k := by
  unfold last_write leaf_written
  rw [last_write_isSome_iff]
  simp

/-- The invariant holds for a freshly constructed storage. -/
theorem tree_inv_init (hh : Hasher) (lc : Nat) :
    tree_inv hh lc [] (nodes_new lc) := by
  refine ⟨by simp [nodes_new]; omega, ?_, ?_⟩
  · intro k hk
    have hlw : last_write [] k = none := rfl
    rw [hlw]
    unfold nodes_new
    have hidx : k + lc < lc * 2 := by omega
    simp [List.getD_eq_getElem?_getD, List.getElem?_replicate, hidx]
  · intro j hj1 hj2 hw _
    exfalso
    obtain ⟨k, _, hwr, _⟩ := hw
    simp [leaf_written] at hwr

/-- The invariant is preserved by one assignment: `set_at` stores the item
hash in the leaf slot and `hash_up` recomputes exactly the ancestors of
that slot from their children, so written leaf slots, off-path slots and
already-consistent internal nodes all stay as the invariant demands. -/
theorem tree_inv_step (hh : Hasher) (lc : Nat) (hlc : 2 ≤ lc)
    (ops : List (Nat × List Nat)) (ns : List Digest) (k : Nat)
    (item : List Nat) (hinv : tree_inv hh lc ops ns) (hk : k < lc) :
    tree_inv hh lc (ops ++ [(k, item)])
      (hash_up hh (ns.set (k + lc) (hh item)) (k + lc)) := by
  obtain ⟨hlen, hleaf, hint⟩ := hinv
  have hp2 : 2 ≤ k + lc := by omega
  have hplen : k + lc < ns.length := by omega
  have hanchalf : ∀ m, 1 ≤ m → (k + lc) / 2 ^ m < lc := by
    intro m hm
    have := anc_le_half (i := k + lc) hm
    omega
  refine ⟨?_, ?_, ?_⟩
  · rw [hash_up_length]
    simp [hlen]
  · intro k2 hk2
    rw [last_write_append]
    rcases eq_or_ne k k2 with rfl | hne
    · rw [if_pos rfl]
      have hfr : (hash_up hh (ns.set (k + lc) (hh item)) (k + lc)).getD
          (k + lc) [] = (ns.set (k + lc) (hh item)).getD (k + lc) [] := by
        apply hash_up_frame
        intro m hm
        have := hanchalf m hm
        omega
      rw [hfr, getD_set_self (by omega) _]
    · rw [if_neg (show ¬((k, item).1 = k2) from hne)]
      have hfr : (hash_up hh (ns.set (k + lc) (hh item)) (k + lc)).getD
          (k2 + lc) [] = (ns.set (k + lc) (hh item)).getD (k2 + lc) [] := by
        apply hash_up_frame
        intro m hm
        have := hanchalf m hm
        omega
      have hset : (ns.set (k + lc) (hh item)).getD (k2 + lc) [] =
          ns.getD (k2 + lc) [] := getD_set_ne (by omega) _
      have := hleaf k2 hk2
      rcases hlw : last_write ops k2 with _ | it
      · rw [hlw] at this
        rw [hfr, hset]
        exact this
      · rw [hlw] at this
        rw [hfr, hset]
        exact this
  · intro j hj1 hj2 hwl hwr
    by_cases hanc : ∃ m, (k + lc) / 2 ^ m = j
    · obtain ⟨m, hm⟩ := hanc
      have hm1 : 1 ≤ m := by
        rcases Nat.eq_zero_or_pos m with rfl | hpos
        · rw [pow_zero, Nat.div_one] at hm
          omega
        · exact hpos
      exact hash_up_path hh (k + lc) (ns.set (k + lc) (hh item)) hp2
        (by simp only [List.length_set]; omega) j hj1 ⟨m, hm1, hm⟩
    · push_neg at hanc
      have hanc2 : ∀ m, (k + lc) / 2 ^ m ≠ 2 * j := by
        intro m hc
        apply hanc (m + 1)
        rw [← div_two_pow_succ_right, hc]
        omega
      have hanc3 : ∀ m, (k + lc) / 2 ^ m ≠ 2 * j + 1 := by
        intro m hc
        apply hanc (m + 1)
        rw [← div_two_pow_succ_right, hc]
        omega
      have hanc0 : k + lc ≠ j := by
        have := hanc 0
        rw [pow_zero, Nat.div_one] at this
        exact this
      have hanc02 : k + lc ≠ 2 * j := by
        have := hanc2 0
        rw [pow_zero, Nat.div_one] at this
        exact this
      have hanc03 : k + lc ≠ 2 * j + 1 := by
        have := hanc3 0
        rw [pow_zero, Nat.div_one] at this
        exact this
      have e1 : (hash_up hh (ns.set (k + lc) (hh item)) (k + lc)).getD j [] =
          ns.getD j [] := by
        rw [hash_up_frame hh j (k + lc) _
          (fun m hm => fun hc => hanc m hc.symm)]
        exact getD_set_ne hanc0 _
      have e2 : (hash_up hh (ns.set (k + lc) (hh item)) (k + lc)).getD
          (2 * j) [] = ns.getD (2 * j) [] := by
        rw [hash_up_frame hh (2 * j) (k + lc) _
          (fun m hm => fun hc => hanc2 m hc.symm)]
        exact getD_set_ne hanc02 _
      have e3 : (hash_up hh (ns.set (k + lc) (hh item)) (k + lc)).getD
          (2 * j + 1) [] = ns.getD (2 * j + 1) [] := by
        rw [hash_up_frame hh (2 * j + 1) (k + lc) _
          (fun m hm => fun hc => hanc3 m hc.symm)]
        exact getD_set_ne hanc03 _
      have hwl2 : slot_written ops lc (2 * j) := by
        rcases (slot_written_append ops (k, item) lc (2 * j)).mp hwl with
          h | ⟨_, m, hm⟩
        · exact h
        · exact absurd hm (hanc2 m)
      have hwr2 : slot_written ops lc (2 * j + 1) := by
        rcases (slot_written_append ops (k, item) lc (2 * j + 1)).mp hwr with
          h | ⟨_, m, hm⟩
        · exact h
        · exact absurd hm (hanc3 m)
      rw [e1, e2, e3]
      exact hint j hj1 hj2 hwl2 hwr2

/-- Reading past the end of the storage yields the default. -/
theorem getD_of_length_le {ns : List Digest} {i : Nat}
    (h : ns.length ≤ i) : ns.getD i [] = [] := by
  rw [List.getD_eq_getElem?_getD, List.getElem?_eq_none h]
  rfl

/-- The invariant propagates along any successful assignment sequence. -/
theorem tree_inv_apply (hh : Hasher) (lc : Nat) (hlc : 2 ≤ lc) :
    ∀ (ops pre : List (Nat × List Nat)) (t t2 : MerkleTree),
      t.hasher = hh → tree_inv hh lc pre t.nodes →
      (∀ p ∈ ops, p.1 < lc) → apply_ops t ops = some t2 →
      t2.hasher = hh ∧ tree_inv hh lc (pre ++ ops) t2.nodes := by
  intro ops
  induction ops with
  | nil =>
    intro pre t t2 hhh hinv _ happ
    have ht : t = t2 := by
      unfold apply_ops at happ
      exact Option.some_inj.mp happ
    subst ht
    simpa using ⟨hhh, hinv⟩
  | cons op rest ih =>
    intro pre t t2 hhh hinv hvalid happ
    unfold apply_ops at happ
    rcases hsf : t.set_at_full op.1 op.2 with _ | t1
    · rw [hsf] at happ
      simp at happ
    · rw [hsf] at happ
      simp only at happ
      have hlen : t.nodes.length = 2 * lc := hinv.1
      have hlcq : t.leaf_count = lc := by unfold leaf_count; omega
      have hkop : op.1 < lc := hvalid op (by simp)
      have hpos : 2 ≤ t.to_node_index op.1 := by
        unfold to_node_index; omega
      have ht1 := set_at_some_eq hpos hsf
      have hnode : t.to_node_index op.1 = op.1 + lc := by
        unfold to_node_index; omega
      have hinv1 : tree_inv hh lc (pre ++ [op]) t1.nodes := by
        have hstep := tree_inv_step hh lc hlc pre t.nodes op.1 op.2 hinv hkop
        rw [ht1]
        show tree_inv hh lc (pre ++ [op])
          (hash_up t.hasher (t.nodes.set (t.to_node_index op.1)
            (t.hasher op.2)) (t.to_node_index op.1))
        rw [hnode, hhh]
        exact hstep
      have hh1 : t1.hasher = hh := by rw [ht1, hhh]
      have := ih (pre ++ [op]) t1 t2 hh1 hinv1
        (fun p hp => hvalid p (by simp [hp])) happ
      rwa [List.append_assoc, List.singleton_append] at this

/-- Every state reachable from a fresh tree by a successful assignment
sequence satisfies the invariant. -/
theorem tree_inv_reach (hh : Hasher) (lc : Nat) (hlc : 2 ≤ lc)
    (ops : List (Nat × List Nat)) (t2 : MerkleTree)
    (hvalid : ∀ p ∈ ops, p.1 < lc)
    (happ : apply_ops ⟨nodes_new lc, hh⟩ ops = some t2) :
    t2.hasher = hh ∧ tree_inv hh lc ops t2.nodes := by
  have := tree_inv_apply hh lc hlc ops [] ⟨nodes_new lc, hh⟩ t2 rfl
    (tree_inv_init hh lc) hvalid happ
  simpa using this

/-- If every internal node is locally consistent, every digest in the
storage is the canonical digest determined by the leaf slots alone. -/
theorem consistent_canonical (hh : Hasher) (lc : Nat) (ns : List Digest)
    (hcons : ∀ j, 1 ≤ j → j < lc →
      ns.getD j [] = hh (ns.getD (2 * j) [] ++ ns.getD (2 * j + 1) [])) :
    ∀ fuel i, 2 * lc ≤ i + fuel → 1 ≤ i → i < 2 * lc →
      ns.getD i [] =
        canonical hh lc (fun k2 => ns.getD (k2 + lc) []) i := by
  intro fuel
  induction fuel with
  | zero => intro i h1 h2 h3; omega
  | succ fuel ih =>
    intro i hf h1 h2
    rw [canonical]
    by_cases hcase : 1 ≤ i ∧ i < lc
    · rw [dif_pos hcase]
      rw [← ih (2 * i) (by omega) (by omega) (by omega),
        ← ih (2 * i + 1) (by omega) (by omega) (by omega)]
      exact hcons i hcase.1 hcase.2
    · rw [dif_neg hcase]
      have hge : lc ≤ i := by omega
      have : i - lc + lc = i := by omega
      rw [this]

/-- Every position in the storage has at least one leaf below it. -/
theorem exists_leaf_below (lc : Nat) :
    ∀ fuel c, 2 * lc ≤ c + fuel → 1 ≤ c → c < 2 * lc →
      ∃ k m, k < lc ∧ (k + lc) / 2 ^ m = c := by
  intro fuel
  induction fuel with
  | zero => intro c h1 h2 h3; omega
  | succ fuel ih =>
    intro c hf h1 h2
    by_cases hcase : lc ≤ c
    · exact ⟨c - lc, 0, by omega, by rw [pow_zero, Nat.div_one]; omega⟩
    · obtain ⟨k, m, hk, hm⟩ := ih (2 * c) (by omega) (by omega) (by omega)
      exact ⟨k, m + 1, hk, by rw [← div_two_pow_succ_right, hm]; omega⟩

theorem step_eq_path_step (t : MerkleTree) (p : Nat) :
    (⟨t.nodes.getD (sibling_index p) [],
      if is_left p then Location.right else Location.left⟩ : ProofStep) =
      path_step t p := by
  unfold path_step is_left
  rcases eq_or_ne (p % 2) 0 with h | h <;> simp [h]

/-- From a start position with exactly `d` ancestors above it (that is, in
`[2 ^ d, 2 ^ (d + 1))`), `proof_recursive` with more than `d` units of
fuel succeeds and produces, leaf to root, the sibling digest and side of
each position on the ancestor chain. -/
theorem proof_recursive_spec (t : MerkleTree) :
    ∀ d p fuel, 2 ^ d ≤ p → p < 2 ^ (d + 1) → d < fuel →
      proof_recursive t fuel p =
        some ((List.range d).map (fun m => path_step t (p / 2 ^ m))) := by
  intro d
  induction d with
  | zero =>
    intro p fuel h1 h2 hf
    have hp : p = 1 := by
      rw [pow_zero] at h1
      rw [pow_one] at h2
      omega
    rcases fuel with _ | f
    · omega
    · rw [proof_recursive, if_pos hp]
      simp
  | succ d ih =>
    intro p fuel h1 h2 hf
    have hpow : (2 : Nat) ^ (d + 1) = 2 * 2 ^ d := by
      rw [pow_succ]; ring
    have hpow2 : (2 : Nat) ^ (d + 1 + 1) = 2 * 2 ^ (d + 1) := by
      rw [pow_succ]; ring
    have h2d : 1 ≤ (2 : Nat) ^ d := Nat.one_le_two_pow
    have hp2 : 2 ≤ p := by omega
    rcases fuel with _ | f
    · omega
    · rw [proof_recursive, if_neg (by omega)]
      dsimp only
      rw [parent_index_eq]
      have hrec := ih (p / 2) f (by omega) (by omega) (by omega)
      rw [hrec]
      rw [show Option.map
        (fun rest => (⟨t.nodes.getD (sibling_index p) [],
          if is_left p then Location.right else Location.left⟩ :
            ProofStep) :: rest)
        (some ((List.range d).map (fun m => path_step t (p / 2 / 2 ^ m)))) =
        some ((⟨t.nodes.getD (sibling_index p) [],
          if is_left p then Location.right else Location.left⟩ :
            ProofStep) ::
          (List.range d).map (fun m => path_step t (p / 2 / 2 ^ m)))
        from rfl]
      congr 1
      rw [List.range_succ_eq_map, List.map_cons, List.map_map]
      congr 1
      · rw [step_eq_path_step]
        congr 1
        rw [pow_zero, Nat.div_one]
      · apply List.map_congr_left
        intro m _
        simp only [Function.comp]
        rw [div_two_pow_succ]

/-- C9.  Index arithmetic closed forms: for every position above 1 the
implemented parent function is truncating division by two (the same
formula for both parities) and the implemented sibling function is xor
with 1, that is, successor for even positions and predecessor for odd
ones. -/
theorem index_arithmetic_closed_forms (i : Nat) (h : 1 < i) :
    parent_index i = i / 2 ∧ sibling_index i = i ^^^ 1 ∧
    (i % 2 = 0 → sibling_index i = i + 1) ∧
    (i % 2 = 1 → sibling_index i = i - 1) :=
  ⟨parent_index_eq i, sibling_index_eq_xor i,
    fun h2 => sibling_index_of_even h2, fun h2 => sibling_index_of_odd h2⟩

theorem index_arithmetic_closed_forms_witness :
    parent_index 5 = 5 / 2 ∧ sibling_index 5 = 5 ^^^ 1 ∧
    (5 % 2 = 0 → sibling_index 5 = 5 + 1) ∧
    (5 % 2 = 1 → sibling_index 5 = 5 - 1) :=
  index_arithmetic_closed_forms 5 (by decide)

/-- C5.  Capacity validation: construction fails exactly when the leaf
count is zero or not a power of two; whenever it succeeds the storage has
size twice the leaf count; in particular 0, 3, 5, 6, 7 are rejected and
1, 2, 4, 8, 16 are accepted. -/
theorem new_capacity_validation (lc : Nat) (hh : Hasher) :
    (new lc hh = none ↔ (lc = 0 ∨ ¬ ∃ k, lc = 2 ^ k)) ∧
    (∀ t, new lc hh = some t → t.nodes.length = 2 * lc) ∧
    new 0 hh = none ∧ new 3 hh = none ∧ new 5 hh = none ∧
    new 6 hh = none ∧ new 7 hh = none ∧
    (new 1 hh).isSome = true ∧ (new 2 hh).isSome = true ∧
    (new 4 hh).isSome = true ∧ (new 8 hh).isSome = true ∧
    (new 16 hh).isSome = true := by
  refine ⟨⟨?_, ?_⟩, ?_, rfl, rfl, rfl, rfl, rfl, rfl, rfl, rfl, rfl, rfl⟩
  · intro hnone
    unfold new at hnone
    by_cases hp : is_power_of_two lc = true
    · rw [if_pos hp] at hnone
      simp at hnone
    · exact Or.inr (fun hex => hp ((is_power_of_two_iff lc).mpr hex))
  · intro hor
    unfold new
    have hp : ¬ is_power_of_two lc = true := by
      intro hp
      obtain ⟨k, hk⟩ := (is_power_of_two_iff lc).mp hp
      rcases hor with h0 | hnex
      · have := Nat.one_le_two_pow (n := k)
        omega
      · exact hnex ⟨k, hk⟩
    rw [if_neg hp]
  · intro t ht
    unfold new at ht
    by_cases hp : is_power_of_two lc = true
    · rw [if_pos hp] at ht
      have := Option.some_inj.mp ht
      rw [← this]
      unfold nodes_new
      simp
      omega
    · rw [if_neg hp] at ht
      simp at ht

theorem new_capacity_validation_witness :
    (⟨nodes_new 4, fun b => b⟩ : MerkleTree).nodes.length = 2 * 4 :=
  (new_capacity_validation 4 (fun b => b)).2.1 _ rfl

/-- C10.  Placeholder convention: right after a successful construction
every one of the `2 * leafCount` slots holds the one-byte digest `[0]`,
and in particular the root of a fresh tree is `[0]`. -/
theorem new_placeholder_slots (lc : Nat) (hh : Hasher) (t : MerkleTree)
    (h : new lc hh = some t) :
    t.nodes = List.replicate (2 * lc) [0] ∧
    t.nodes.length = 2 * lc ∧
    (∀ j, j < 2 * lc → t.nodes.getD j [] = [0]) ∧
    root t = [0] := by
  unfold new at h
  by_cases hp : is_power_of_two lc = true
  · rw [if_pos hp] at h
    have hlc1 : 1 ≤ lc := by
      obtain ⟨k, hk⟩ := (is_power_of_two_iff lc).mp hp
      have := Nat.one_le_two_pow (n := k)
      omega
    have ht := Option.some_inj.mp h
    rw [← ht]
    have hrep : nodes_new lc = List.replicate (2 * lc) [0] := by
      unfold nodes_new
      rw [mul_comm]
    refine ⟨hrep, by rw [hrep]; simp, ?_, ?_⟩
    · intro j hj
      rw [hrep, List.getD_eq_getElem?_getD, List.getElem?_replicate,
        if_pos hj]
      rfl
    · show (nodes_new lc).getD 1 [] = [0]
      rw [hrep, List.getD_eq_getElem?_getD, List.getElem?_replicate,
        if_pos (by omega)]
      rfl
  · rw [if_neg hp] at h
    simp at h

theorem new_placeholder_slots_witness :
    (⟨List.replicate (2 * 2) [0], fun b => b⟩ : MerkleTree).nodes =
      List.replicate (2 * 2) [0] ∧
    (⟨List.replicate (2 * 2) [0], fun b => b⟩ : MerkleTree).nodes.length =
      2 * 2 ∧
    (∀ j, j < 2 * 2 →
      (⟨List.replicate (2 * 2) [0], fun b => b⟩ : MerkleTree).nodes.getD
        j [] = [0]) ∧
    root ⟨List.replicate (2 * 2) [0], fun b => b⟩ = [0] :=
  new_placeholder_slots 2 (fun b => b) _ rfl

/-- C3 fails on the code at capacity 1: construction accepts a leaf count
of 1, but assigning its single leaf never terminates, because the leaf
sits at position 1, its parent is position 0, and from position 0 the
recursion writes position 0 again forever without ever passing the root
test; every amount of fuel is exhausted.  For capacities of at least 2
the recursion is bounded (see `hash_recursive_isSome`), so the claim
fails only through the accepted capacity 1. -/
theorem set_at_capacity_one_diverges :
    (new 1 (fun b => b)).isSome = true ∧
    ∀ fuel (item : List Nat),
      set_at ⟨nodes_new 1, fun b => b⟩ fuel 0 item = none := by
  refine ⟨rfl, ?_⟩
  intro fuel item
  unfold set_at
  dsimp only
  rw [show (⟨nodes_new 1, fun b => b⟩ : MerkleTree).to_node_index 0 = 1
    from rfl]
  rw [hash_recursive_one_none]
  rfl

/-- C6.  Proof shape: on a tree of capacity `2 ^ d`, for every leaf index
`i` below the capacity, `proof i` succeeds with exactly `d` steps ordered
leaf to root, and the step for the `m`-th path position
`(i + leafCount) / 2 ^ m` carries the digest stored at that position's
sibling together with side right when the position is a left child (even)
and side left otherwise. -/
theorem proof_shape (d lc : Nat) (hlc : lc = 2 ^ d) (t : MerkleTree)
    (hlen : t.nodes.length = 2 * lc) (i : Nat) (hi : i < lc) :
    ∃ steps, proof t i = some steps ∧ steps.length = d ∧
      ∀ m, m < d →
        steps.getD m ⟨[], Location.left⟩ =
          ⟨t.nodes.getD (sibling_index ((i + lc) / 2 ^ m)) [],
            if (i + lc) / 2 ^ m % 2 = 0 then Location.right
            else Location.left⟩ := by
  subst hlc
  unfold proof
  have hni : t.to_node_index i = i + 2 ^ d := by
    unfold to_node_index leaf_count
    omega
  rw [hni]
  have hpow : (2 : Nat) ^ (d + 1) = 2 * 2 ^ d := by rw [pow_succ]; ring
  have hd : d < 2 ^ d := Nat.lt_two_pow d
  rw [proof_recursive_spec t d (i + 2 ^ d) (i + 2 ^ d + 1) (by omega)
    (by omega) (by omega)]
  refine ⟨_, rfl, by simp, ?_⟩
  intro m hm
  have hsome : ((List.range d).map
      (fun m => path_step t ((i + 2 ^ d) / 2 ^ m)))[m]? =
      some (path_step t ((i + 2 ^ d) / 2 ^ m)) := by
    rw [List.getElem?_map, List.getElem?_range hm]
    rfl
  rw [List.getD_eq_getElem?_getD, hsome]
  rfl

theorem proof_shape_witness :
    ∃ steps,
      proof ⟨nodes_new 4, fun b => b⟩ 1 = some steps ∧ steps.length = 2 ∧
      ∀ m, m < 2 →
        steps.getD m ⟨[], Location.left⟩ =
          ⟨(⟨nodes_new 4, fun b => b⟩ : MerkleTree).nodes.getD
            (sibling_index ((1 + 4) / 2 ^ m)) [],
            if (1 + 4) / 2 ^ m % 2 = 0 then Location.right
            else Location.left⟩ :=
  proof_shape 2 4 rfl ⟨nodes_new 4, fun b => b⟩ rfl 1 (by decide)

/-- C8.  Frame property of assignment: on any tree of capacity at least 2
with correctly sized storage, a successful `set_at` changes at most the
leaf slot `itemIndex + leafCount` and its ancestors up to the root, the
chain positions `(itemIndex + leafCount) / 2 ^ m` that are at least 1;
every other slot — the unused slot 0 included, stated both under the
general frame condition and once more explicitly — as well as the storage
size and the stored hasher are unchanged. -/
theorem set_at_frame (lc : Nat) (hlc : 2 ≤ lc) (t : MerkleTree)
    (hlen : t.nodes.length = 2 * lc) (fuel k : Nat) (item : List Nat)
    (t2 : MerkleTree) (hk : k < lc) (h : t.set_at fuel k item = some t2) :
    t2.hasher = t.hasher ∧ t2.nodes.length = t.nodes.length ∧
    (∀ j, j ≠ k + lc →
      (∀ m, 1 ≤ m → 1 ≤ (k + lc) / 2 ^ m → j ≠ (k + lc) / 2 ^ m) →
      t2.nodes.getD j [] = t.nodes.getD j []) ∧
    t2.nodes.getD 0 [] = t.nodes.getD 0 [] := by
  have hlcq : t.leaf_count = lc := by
    unfold leaf_count
    omega
  have hni : t.to_node_index k = k + lc := by
    unfold to_node_index
    omega
  have hpos : 2 ≤ t.to_node_index k := by omega
  have ht2 := set_at_some_eq hpos h
  have hframe : ∀ j, j ≠ k + lc →
      (∀ m, 1 ≤ m → 1 ≤ (k + lc) / 2 ^ m → j ≠ (k + lc) / 2 ^ m) →
      t2.nodes.getD j [] = t.nodes.getD j [] := by
    intro j hj0 hjm
    rw [ht2]
    show (hash_up t.hasher (t.nodes.set (t.to_node_index k)
      (t.hasher item)) (t.to_node_index k)).getD j [] = t.nodes.getD j []
    rw [hni]
    rw [hash_up_frame_pos t.hasher j (k + lc) _ (by omega) hjm]
    exact getD_set_ne (fun hc => hj0 hc.symm) _
  refine ⟨by rw [ht2], ?_, hframe, ?_⟩
  · rw [ht2]
    show (hash_up t.hasher (t.nodes.set (t.to_node_index k)
      (t.hasher item)) (t.to_node_index k)).length = t.nodes.length
    rw [hash_up_length]
    simp
  · exact hframe 0 (by omega) (fun m hm hpos2 => by omega)

theorem set_at_frame_witness :
    (⟨[[0], [7, 0], [7], [0]], fun b => b⟩ : MerkleTree).hasher =
      (⟨nodes_new 2, fun b => b⟩ : MerkleTree).hasher ∧
    (⟨[[0], [7, 0], [7], [0]], fun b => b⟩ : MerkleTree).nodes.length =
      (⟨nodes_new 2, fun b => b⟩ : MerkleTree).nodes.length ∧
    (∀ j, j ≠ 0 + 2 →
      (∀ m, 1 ≤ m → 1 ≤ (0 + 2) / 2 ^ m → j ≠ (0 + 2) / 2 ^ m) →
      (⟨[[0], [7, 0], [7], [0]], fun b => b⟩ : MerkleTree).nodes.getD
        j [] =
      (⟨nodes_new 2, fun b => b⟩ : MerkleTree).nodes.getD j []) ∧
    (⟨[[0], [7, 0], [7], [0]], fun b => b⟩ : MerkleTree).nodes.getD 0 [] =
      (⟨nodes_new 2, fun b => b⟩ : MerkleTree).nodes.getD 0 [] :=
  set_at_frame 2 (by decide) ⟨nodes_new 2, fun b => b⟩ rfl 4 0 [7]
    ⟨[[0], [7, 0], [7], [0]], fun b => b⟩ (by decide) rfl

/-- C7.  Internal-node hashing invariant: in every state reachable from a
fresh tree of capacity `2 ^ d` (`d` at least 1) by a successful sequence
of valid assignments, every internal node both of whose children's slots
have been written at least once (that is, some assigned leaf lies below
each child) holds the hash of the concatenation of its children's current
digests, left child first. -/
theorem internal_node_hash_invariant (d lc : Nat) (hd : 1 ≤ d)
    (hlc : lc = 2 ^ d) (hh : Hasher) (ops : List (Nat × List Nat))
    (t : MerkleTree) (hvalid : ∀ p ∈ ops, p.1 < lc)
    (happ : apply_ops ⟨nodes_new lc, hh⟩ ops = some t)
    (j : Nat) (hj1 : 1 ≤ j) (hj2 : j < lc)
    (hl : slot_written ops lc (2 * j)) (hr : slot_written ops lc (2 * j + 1)) :
    t.nodes.getD j [] =
      hh (t.nodes.getD (2 * j) [] ++ t.nodes.getD (2 * j + 1) []) := by
  have hlc2 : 2 ≤ lc := by
    have : (2 : Nat) ^ 1 ≤ 2 ^ d := Nat.pow_le_pow_right (by omega) hd
    rw [pow_one] at this
    omega
  obtain ⟨_, hinv⟩ := tree_inv_reach hh lc hlc2 ops t hvalid happ
  exact hinv.2.2 j hj1 hj2 hl hr

theorem internal_node_hash_invariant_witness :
    (⟨[[0], [3, 4], [3], [4]], fun b => b⟩ : MerkleTree).nodes.getD 1 [] =
      (fun b => b)
        ((⟨[[0], [3, 4], [3], [4]], fun b => b⟩ : MerkleTree).nodes.getD
          (2 * 1) [] ++
        (⟨[[0], [3, 4], [3], [4]], fun b => b⟩ : MerkleTree).nodes.getD
          (2 * 1 + 1) []) :=
  internal_node_hash_invariant 1 2 (by decide) rfl (fun b => b)
    [(0, [3]), (1, [4])] ⟨[[0], [3, 4], [3], [4]], fun b => b⟩
    (by decide) rfl 1 (by decide) (by decide)
    ⟨0, by decide, by decide, 0, by decide⟩
    ⟨1, by decide, by decide, 0, by decide⟩

/-- C4.  Order-independence: for any power-of-two capacity, any hasher
and any two successful assignment sequences that assign every leaf at
least once and agree on the last item written to each leaf, the final
roots coincide.  (For capacity 1 the hypotheses are vacuous: no
assignment ever succeeds there, see C3.) -/
theorem root_order_independence (d lc : Nat) (hlc : lc = 2 ^ d)
    (hh : Hasher) (ops1 ops2 : List (Nat × List Nat))
    (t1 t2 : MerkleTree)
    (hv1 : ∀ p ∈ ops1, p.1 < lc) (hv2 : ∀ p ∈ ops2, p.1 < lc)
    (hcov : ∀ k, k < lc → last_write ops1 k ≠ none)
    (hsame : ∀ k, k < lc → last_write ops1 k = last_write ops2 k)
    (h1 : apply_ops ⟨nodes_new lc, hh⟩ ops1 = some t1)
    (h2 : apply_ops ⟨nodes_new lc, hh⟩ ops2 = some t2) :
    root t1 = root t2 := by
  rcases Nat.eq_zero_or_pos d with rfl | hd
  · -- capacity 1: coverage forces an assignment, and none can succeed
    rw [pow_zero] at hlc
    subst hlc
    exfalso
    rcases hops : ops1 with _ | ⟨op, rest⟩
    · have := hcov 0 (by omega)
      rw [hops] at this
      exact this rfl
    · rw [hops] at h1
      unfold apply_ops at h1
      have hop : op.1 = 0 := by
        have := hv1 op (by rw [hops]; simp)
        omega
      have hsf : set_at_full ⟨nodes_new 1, hh⟩ op.1 op.2 = none := by
        unfold set_at_full set_at
        dsimp only
        rw [show (⟨nodes_new 1, hh⟩ : MerkleTree).to_node_index op.1 = 1 by
          unfold to_node_index leaf_count nodes_new
          simp [hop]]
        rw [hash_recursive_one_none]
        rfl
      rw [hsf] at h1
      simp at h1
  · have hlc2 : 2 ≤ lc := by
      have : (2 : Nat) ^ 1 ≤ 2 ^ d := Nat.pow_le_pow_right (by omega) hd
      rw [pow_one] at this
      omega
    obtain ⟨_, hinv1⟩ := tree_inv_reach hh lc hlc2 ops1 t1 hv1 h1
    obtain ⟨_, hinv2⟩ := tree_inv_reach hh lc hlc2 ops2 t2 hv2 h2
    have hcov2 : ∀ k, k < lc → last_write ops2 k ≠ none := by
      intro k hk
      rw [← hsame k hk]
      exact hcov k hk
    have hslot1 : ∀ c, 1 ≤ c → c < 2 * lc → slot_written ops1 lc c := by
      intro c hc1 hc2
      obtain ⟨k, m, hk, hm⟩ :=
        exists_leaf_below lc (2 * lc) c (by omega) hc1 hc2
      exact ⟨k, hk, (last_write_ne_none_iff ops1 k).mp (hcov k hk), m, hm⟩
    have hslot2 : ∀ c, 1 ≤ c → c < 2 * lc → slot_written ops2 lc c := by
      intro c hc1 hc2
      obtain ⟨k, m, hk, hm⟩ :=
        exists_leaf_below lc (2 * lc) c (by omega) hc1 hc2
      exact ⟨k, hk, (last_write_ne_none_iff ops2 k).mp (hcov2 k hk), m, hm⟩
    have hcons1 : ∀ j, 1 ≤ j → j < lc →
        t1.nodes.getD j [] =
          hh (t1.nodes.getD (2 * j) [] ++ t1.nodes.getD (2 * j + 1) []) := by
      intro j hj1 hj2
      exact hinv1.2.2 j hj1 hj2 (hslot1 (2 * j) (by omega) (by omega))
        (hslot1 (2 * j + 1) (by omega) (by omega))
    have hcons2 : ∀ j, 1 ≤ j → j < lc →
        t2.nodes.getD j [] =
          hh (t2.nodes.getD (2 * j) [] ++ t2.nodes.getD (2 * j + 1) []) := by
      intro j hj1 hj2
      exact hinv2.2.2 j hj1 hj2 (hslot2 (2 * j) (by omega) (by omega))
        (hslot2 (2 * j + 1) (by omega) (by omega))
    have hroot1 := consistent_canonical hh lc t1.nodes hcons1 (2 * lc) 1
      (by omega) (by omega) (by omega)
    have hroot2 := consistent_canonical hh lc t2.nodes hcons2 (2 * lc) 1
      (by omega) (by omega) (by omega)
    have hleaf_funs : (fun k2 => t1.nodes.getD (k2 + lc) []) =
        (fun k2 => t2.nodes.getD (k2 + lc) []) := by
      funext k2
      by_cases hk2 : k2 < lc
      · have e1 := hinv1.2.1 k2 hk2
        have e2 := hinv2.2.1 k2 hk2
        rcases hlw : last_write ops1 k2 with _ | it
        · exact absurd hlw (hcov k2 hk2)
        · rw [hlw] at e1
          dsimp only at e1
          have hlw2 : last_write ops2 k2 = some it := by
            rw [← hsame k2 hk2]
            exact hlw
          rw [hlw2] at e2
          dsimp only at e2
          rw [e1, e2]
      · rw [getD_of_length_le (by rw [hinv1.1]; omega),
          getD_of_length_le (by rw [hinv2.1]; omega)]
    unfold root
    rw [hroot1, hroot2, hleaf_funs]

theorem root_order_independence_witness :
    root ⟨[[0], [5, 9], [5], [9]], fun b => b⟩ =
      root ⟨[[0], [5, 9], [5], [9]], fun b => b⟩ :=
  root_order_independence 1 2 rfl (fun b => b)
    [(0, [5]), (1, [9])] [(1, [9]), (0, [5])]
    ⟨[[0], [5, 9], [5], [9]], fun b => b⟩
    ⟨[[0], [5, 9], [5], [9]], fun b => b⟩
    (by decide) (by decide) (by decide) (by decide) rfl rfl

set_option maxRecDepth 100000 in
/-- C1 fails on the code at the specification's own concrete scenario:
populating the eight-leaf tree with the test items (with the tests'
CRC-8/DARC hasher) yields root `0x0B` and the expected proof for leaf 3,
but `verify` on that proof with the item Delta recomputes `0xEF`, not the
root: `verify` concatenates `(candidate, sibling)` for side left and
`(sibling, candidate)` for side right, the reverse of the structural
order `hash_recursive` used to build the tree, so the round trip breaks
at every leaf whose recomputed concatenations are not hash collisions. -/
theorem roundtrip_membership_fails_concrete :
    apply_ops ⟨nodes_new 8, crc8⟩ demo_ops = some demo_tree ∧
    proof demo_tree 3 = some delta_proof_steps ∧
    root demo_tree = [0x0B] ∧
    verify crc8 delta_proof_steps delta_item = [0xEF] ∧
    verify crc8 delta_proof_steps delta_item ≠ root demo_tree := by
  refine ⟨rfl, rfl, rfl, rfl, by decide⟩

set_option maxRecDepth 100000 in
/-- C2 fails on the code: at a concrete one-step proof with the identity
hasher, the implementation returns `candidate ++ sibling` for side left
where the claimed formula returns `sibling ++ candidate`; and on the
specification's concrete scenario the claimed formula recomputes the root
`0x0B` while the implementation returns `0xEF`.  The implementation
computes the claimed formula with the two sides exchanged. -/
theorem verify_step_formula_reversed :
    verify (fun b => b) [⟨[1], Location.left⟩] [2] = [2, 1] ∧
    verify_spec_formula (fun b => b) [⟨[1], Location.left⟩] [2] = [1, 2] ∧
    verify (fun b => b) [⟨[1], Location.left⟩] [2] ≠
      verify_spec_formula (fun b => b) [⟨[1], Location.left⟩] [2] ∧
    verify crc8 delta_proof_steps delta_item = [0xEF] ∧
    verify_spec_formula crc8 delta_proof_steps delta_item = [0x0B] := by
  refine ⟨rfl, rfl, by decide, rfl, rfl⟩

end MerkleTree
